import Mathlib

/-!
Shallow embedding of the NEAR L1-NFT-Certificate contract
(`src/near-nft-cert/contract/src/lib.rs`) and verification of its
specification claims.

Account identifiers are strings (host-side validity checking of
`ValidAccountId` is the host environment's responsibility and outside the
contract's code).  The NEAR `UnorderedMap` collections are embedded as
association lists with lookup (`mapGet`, mirroring `get`) and
insert-or-replace (`mapInsert`, mirroring `insert`).  Host inputs
(`env::predecessor_account_id()`, `env::block_timestamp()`) are passed as
explicit parameters.  An aborting assertion (`assert!`/`unwrap`) is embedded
as an `Except.error`; the host rolls back the whole call on abort, so the
`step` function keeps the pre-state on error.
-/

namespace NearCert

/-- Account identifiers (`AccountId` / `ValidAccountId` in the source). -/
abbrev AccountId := String

/-- `TokenId` from the token standard. -/
abbrev TokenId := String

/-- `TokenMetadata` of `near_contract_standards`, as the contract fills it in
`new_cert` (lib.rs lines 128-141). -/
structure TokenMetadata where
  title : Option String
  description : Option String
  media : Option String
  media_hash : Option String
  copies : Option Nat
  issued_at : Option String
  expires_at : Option String
  starts_at : Option String
  updated_at : Option String
  extra : Option String
  reference : Option String
  reference_hash : Option String
  deriving DecidableEq, Repr

/-- `Certificate` (lib.rs lines 31-37). -/
structure Certificate where
  owner_name : String
  issuer_account : AccountId
  is_approved : Bool
  metadata : TokenMetadata
  owner_account : AccountId
  deriving DecidableEq, Repr

/-- `Issuer` (lib.rs lines 41-44). -/
structure Issuer where
  name : String
  account : AccountId
  deriving DecidableEq, Repr

/-- `Token` as returned by the external token facility. -/
structure Token where
  token_id : TokenId
  owner_id : AccountId
  metadata : Option TokenMetadata
  deriving DecidableEq, Repr

/-- The external `NonFungibleToken` facility's state, reduced to the set of
minted tokens (its internals are an external collaborator). -/
structure NFT where
  tokens : List Token
  deriving DecidableEq, Repr

/-- Failure outcomes of a call; every one aborts the call (panics in the
source) with no partial mutation. -/
inductive Err where
  | Unauthorized
  | IssuerNotFound
  | CertificateNotFound
  | TokenIdExists
  | TokenNotFound
  deriving DecidableEq, Repr

/-- `UnorderedMap::get`: lookup by key in the association-list embedding. -/
def mapGet {α : Type} : List (AccountId × α) → AccountId → Option α
  | [], _ => none
  | (k, v) :: rest, key => if key = k then some v else mapGet rest key

/-- `UnorderedMap::insert`: replace the value when the key is present,
otherwise add the new entry. -/
def mapInsert {α : Type} : List (AccountId × α) → AccountId → α → List (AccountId × α)
  | [], key, v => [(key, v)]
  | (k, w) :: rest, key, v =>
      if k = key then (k, v) :: rest else (k, w) :: mapInsert rest key v

/-- `Contract` state (lib.rs lines 48-57); the `LazyOption<NFTContractMetadata>`
field only carries static display metadata fixed at initialization and is
outside every claim, so it is not carried in the state. -/
structure Contract where
  contract_foundation : AccountId
  issuers : List (AccountId × Issuer)
  certs_map : List (AccountId × Certificate)
  nft_token : NFT
  deriving DecidableEq, Repr

/-- `Contract::new` (lib.rs lines 70-98): the initializing caller becomes the
foundation (administrator) account and both registries start empty. -/
def Contract.new (admin : AccountId) : Contract :=
  { contract_foundation := admin
    issuers := []
    certs_map := []
    nft_token := { tokens := [] } }

/-- `only_owner` (lib.rs lines 197-206): the caller must be the foundation
account. -/
def only_owner (s : Contract) (caller : AccountId) : Bool :=
  caller == s.contract_foundation

/-- `only_issuer` (lib.rs lines 208-215): the caller must be a key of the
issuer map. -/
def only_issuer (s : Contract) (caller : AccountId) : Bool :=
  (mapGet s.issuers caller).isSome

/-- `new_issuer` (lib.rs lines 100-112). -/
def new_issuer (s : Contract) (caller : AccountId) (issuer : AccountId)
    (issuer_name : String) : Except Err (Bool × Contract) :=
  if only_owner s caller then
    if (mapGet s.issuers issuer).isSome then
      .ok (false, s)
    else
      .ok (true, { s with
        issuers := mapInsert s.issuers issuer { name := issuer_name, account := issuer } })
  else
    .error .Unauthorized

/-- The `TokenMetadata` value built inside `new_cert` (lib.rs lines 128-141):
fixed title, empty description, the supplied media URI, no media hash, one
copy, and the block timestamp rendered as a string. -/
def certMetadata (media_uri : String) (ts : Nat) : TokenMetadata :=
  { title := some "L1 Certificate"
    description := some ""
    media := some media_uri
    media_hash := none
    copies := some 1
    issued_at := some (toString ts)
    expires_at := none
    starts_at := none
    updated_at := none
    extra := none
    reference := none
    reference_hash := none }

/-- The `Certificate` value built inside `new_cert` (lib.rs lines 143-149):
never approved, crediting the stored profile's account as issuer, keyed by the
supplied owner account. -/
def mkCert (creator : Issuer) (ts : Nat) (owner_name : String)
    (owner_account : AccountId) (media_uri : String) : Certificate :=
  { owner_name := owner_name
    issuer_account := creator.account
    is_approved := false
    metadata := certMetadata media_uri ts
    owner_account := owner_account }

/-- `new_cert` (lib.rs lines 114-153): issuer-only; builds the certificate
from the calling issuer's stored profile and inserts it keyed by the owner
account, replacing any prior entry.  The supplied `media_hash` argument is
never used by the body.  `ts` is `env::block_timestamp()`. -/
def new_cert (s : Contract) (caller : AccountId) (ts : Nat) (owner_name : String)
    (owner_account : AccountId) (media_uri : String) (_media_hash : String) :
    Except Err (Certificate × Contract) :=
  if only_issuer s caller then
    match mapGet s.issuers caller with
    | none => .error .IssuerNotFound
    | some creator =>
        let cert : Certificate := mkCert creator ts owner_name owner_account media_uri
        .ok (cert, { s with certs_map := mapInsert s.certs_map owner_account cert })
  else
    .error .Unauthorized

/-- Modelled from the spec: the external token-minting facility
`mint(receiver, token_id, metadata) -> Token` of section 6 — its code lives in
the `near_contract_standards` crate, not in this repository.  A durable token
bound to the identifier is created unless one with that identifier already
exists. -/
def nftMint (n : NFT) (token_id : TokenId) (receiver_id : AccountId)
    (md : Option TokenMetadata) : Except Err (Token × NFT) :=
  if n.tokens.any fun t => t.token_id == token_id then
    .error .TokenIdExists
  else
    let tok : Token := { token_id := token_id, owner_id := receiver_id, metadata := md }
    .ok (tok, { tokens := n.tokens ++ [tok] })

/-- Modelled from the spec: the external token facility's
`transfer(receiver, token_id, ...)` of section 6 — its code lives in the
`near_contract_standards` crate, not in this repository.  It fails if no
token exists for the identifier, otherwise moves custody to the receiver. -/
def nftTransfer (n : NFT) (receiver_id : AccountId) (token_id : TokenId) :
    Except Err (Unit × NFT) :=
  if n.tokens.any fun t => t.token_id == token_id then
    .ok ((), { tokens := n.tokens.map fun t =>
      if t.token_id == token_id then { t with owner_id := receiver_id } else t })
  else
    .error .TokenNotFound

/-- `mint_cert` (lib.rs lines 167-180): administrator-only; requires an
existing certificate for `account`, then delegates to the external mint with
token identifier `cert.owner_account`, receiver `account`, and the
certificate's metadata.  The certificate record itself is untouched. -/
def mint_cert (s : Contract) (caller : AccountId) (account : AccountId) :
    Except Err (Token × Contract) :=
  if only_owner s caller then
    match mapGet s.certs_map account with
    | none => .error .CertificateNotFound
    | some cert =>
        match nftMint s.nft_token cert.owner_account account (some cert.metadata) with
        | .error e => .error e
        | .ok (tok, n) => .ok (tok, { s with nft_token := n })
  else
    .error .Unauthorized

/-- `transfer_to_owner` (lib.rs lines 182-186): administrator-only; a
self-addressed transfer of the token identified by `account` to `account`. -/
def transfer_to_owner (s : Contract) (caller : AccountId) (account : AccountId) :
    Except Err (Unit × Contract) :=
  if only_owner s caller then
    match nftTransfer s.nft_token account account with
    | .error e => .error e
    | .ok (_, n) => .ok ((), { s with nft_token := n })
  else
    .error .Unauthorized

/-- `cert_lists` (lib.rs lines 189-194): the read-only view of all
(owner account, certificate) pairs. -/
def cert_lists (s : Contract) : List (AccountId × Certificate) :=
  s.certs_map

/-- One invocation of a mutating entry point, with the host inputs it
depends on. -/
inductive Action where
  | newIssuer (caller : AccountId) (issuer : AccountId) (issuer_name : String)
  | newCert (caller : AccountId) (ts : Nat) (owner_name : String)
      (owner_account : AccountId) (media_uri : String) (media_hash : String)
  | mintCert (caller : AccountId) (account : AccountId)
  | transferToOwner (caller : AccountId) (account : AccountId)

/-- The state after one call: on abort the host rolls every mutation back, so
the pre-state is kept. -/
def step (s : Contract) (a : Action) : Contract :=
  match a with
  | .newIssuer c i n =>
      match new_issuer s c i n with
      | .ok (_, t) => t
      | .error _ => s
  | .newCert c ts onm oa mu mh =>
      match new_cert s c ts onm oa mu mh with
      | .ok (_, t) => t
      | .error _ => s
  | .mintCert c acc =>
      match mint_cert s c acc with
      | .ok (_, t) => t
      | .error _ => s
  | .transferToOwner c acc =>
      match transfer_to_owner s c acc with
      | .ok (_, t) => t
      | .error _ => s

/-- The states reachable from initialization through the contract's mutating
entry points. -/
inductive Reachable : Contract → Prop where
  | init (admin : AccountId) : Reachable (Contract.new admin)
  | step {s : Contract} (a : Action) : Reachable s → Reachable (step s a)

/-! ### Association-list lemmas -/

theorem mapGet_mapInsert {α : Type} (m : List (AccountId × α)) (k k' : AccountId) (v : α) :
    mapGet (mapInsert m k v) k' = if k' = k then some v else mapGet m k' := by
  induction m with
  | nil => simp [mapInsert, mapGet]
  | cons hd tl ih =>
      obtain ⟨k₁, v₁⟩ := hd
      by_cases h1 : k₁ = k
      · subst h1
        by_cases h2 : k' = k₁ <;> simp [mapInsert, mapGet, h2]
      · by_cases h2 : k' = k₁
        · subst h2
          simp [mapInsert, mapGet, h1, Ne.symm h1]
        · simp [mapInsert, mapGet, h1, h2, ih]

theorem mem_mapInsert {α : Type} {p : AccountId × α} {m : List (AccountId × α)}
    {k : AccountId} {v : α} (h : p ∈ mapInsert m k v) : p = (k, v) ∨ p ∈ m := by
  induction m with
  | nil => simpa [mapInsert] using h
  | cons hd tl ih =>
      obtain ⟨k₁, v₁⟩ := hd
      by_cases h1 : k₁ = k
      · subst h1
        rcases (by simpa [mapInsert] using h : p = (k₁, v) ∨ p ∈ tl) with h2 | h2
        · exact Or.inl h2
        · exact Or.inr (List.mem_cons_of_mem _ h2)
      · rcases (by simpa [mapInsert, h1] using h : p = (k₁, v₁) ∨ p ∈ mapInsert tl k v)
          with h2 | h2
        · exact Or.inr (by simp [h2])
        · rcases ih h2 with h3 | h3
          · exact Or.inl h3
          · exact Or.inr (List.mem_cons_of_mem _ h3)

theorem mapGet_some_mem {α : Type} {m : List (AccountId × α)} {k : AccountId} {v : α}
    (h : mapGet m k = some v) : (k, v) ∈ m := by
  induction m with
  | nil => simp [mapGet] at h
  | cons hd tl ih =>
      obtain ⟨k₁, v₁⟩ := hd
      by_cases h1 : k = k₁
      · subst h1
        simp [mapGet] at h
        simp [h]
      · simp [mapGet, h1] at h
        exact List.mem_cons_of_mem _ (ih h)

theorem mapGet_none_countP {α : Type} {m : List (AccountId × α)} {k : AccountId}
    (h : mapGet m k = none) : m.countP (fun p => p.1 == k) = 0 := by
  induction m with
  | nil => simp
  | cons hd tl ih =>
      obtain ⟨k₁, v₁⟩ := hd
      by_cases h1 : k = k₁
      · simp [mapGet, h1] at h
      · simp [mapGet, h1] at h
        simp [List.countP_cons, ih h, Ne.symm h1]

theorem mapGet_some_one_le_countP {α : Type} {m : List (AccountId × α)} {k : AccountId}
    {v : α} (h : mapGet m k = some v) : 1 ≤ m.countP (fun p => p.1 == k) := by
  have hm : (k, v) ∈ m := mapGet_some_mem h
  have hpos : 0 < m.countP (fun p => p.1 == k) :=
    List.countP_pos_iff.mpr ⟨(k, v), hm, by simp⟩
  omega

theorem countP_mapInsert {α : Type} (m : List (AccountId × α)) (k k' : AccountId) (v : α) :
    (mapInsert m k v).countP (fun p => p.1 == k') =
      if (mapGet m k).isSome then m.countP (fun p => p.1 == k')
      else m.countP (fun p => p.1 == k') + (if k = k' then 1 else 0) := by
  induction m with
  | nil => simp [mapInsert, mapGet, List.countP_cons]
  | cons hd tl ih =>
      obtain ⟨k₁, v₁⟩ := hd
      by_cases h1 : k₁ = k
      · subst h1
        simp [mapInsert, mapGet, List.countP_cons]
      · simp only [mapInsert, mapGet, if_neg h1, if_neg (Ne.symm h1), List.countP_cons, ih]
        by_cases h2 : (mapGet tl k).isSome
        · simp [h2]
          try omega
        · simp [h2]
          try omega

/-! ### The reachable-state invariant -/

/-- The structural invariant maintained by every entry point: issuer profiles
record their own key as their account; certificates are never approved, name
a registered issuer, and record their own key as their owner; and each key
occurs at most once in either registry. -/
def GoodState (s : Contract) : Prop :=
  (∀ p ∈ s.issuers, (p : AccountId × Issuer).2.account = p.1) ∧
  (∀ p ∈ s.certs_map, (p : AccountId × Certificate).2.is_approved = false) ∧
  (∀ p ∈ s.certs_map, (mapGet s.issuers (p : AccountId × Certificate).2.issuer_account).isSome = true) ∧
  (∀ p ∈ s.certs_map, (p : AccountId × Certificate).2.owner_account = p.1) ∧
  (∀ k : AccountId, s.certs_map.countP (fun p => p.1 == k) ≤ 1) ∧
  (∀ k : AccountId, s.issuers.countP (fun p => p.1 == k) ≤ 1)

theorem goodState_init (admin : AccountId) : GoodState (Contract.new admin) := by
  refine ⟨?_, ?_, ?_, ?_, ?_, ?_⟩ <;> simp [Contract.new]


theorem goodState_congr {s t : Contract} (hi : t.issuers = s.issuers)
    (hc : t.certs_map = s.certs_map) (h : GoodState s) : GoodState t := by
  unfold GoodState at h ⊢
  rw [hi, hc]
  exact h

/-- `mint_cert` never touches the issuer or certificate registries. -/
theorem step_mintCert_registries (s : Contract) (c acc : AccountId) :
    (step s (Action.mintCert c acc)).issuers = s.issuers ∧
    (step s (Action.mintCert c acc)).certs_map = s.certs_map := by
  cases hb : only_owner s c with
  | false => simp [step, mint_cert, hb]
  | true =>
      cases hg : mapGet s.certs_map acc with
      | none => simp [step, mint_cert, hb, hg]
      | some cert =>
          cases hm : nftMint s.nft_token cert.owner_account acc (some cert.metadata) with
          | error e => simp [step, mint_cert, hb, hg, hm]
          | ok r =>
              obtain ⟨tok, n⟩ := r
              simp [step, mint_cert, hb, hg, hm]

/-- `transfer_to_owner` never touches the issuer or certificate registries. -/
theorem step_transfer_registries (s : Contract) (c acc : AccountId) :
    (step s (Action.transferToOwner c acc)).issuers = s.issuers ∧
    (step s (Action.transferToOwner c acc)).certs_map = s.certs_map := by
  cases hb : only_owner s c with
  | false => simp [step, transfer_to_owner, hb]
  | true =>
      cases hm : nftTransfer s.nft_token acc acc with
      | error e => simp [step, transfer_to_owner, hb, hm]
      | ok r =>
          obtain ⟨u, n⟩ := r
          simp [step, transfer_to_owner, hb, hm]

theorem goodState_step {s : Contract} (a : Action) (h : GoodState s) :
    GoodState (step s a) := by
  obtain ⟨hacc, happr, hreg, hown, hcu, hiu⟩ := h
  cases a with
  | newIssuer c i n =>
      cases hb : only_owner s c with
      | false =>
          have hstep : step s (Action.newIssuer c i n) = s := by
            simp [step, new_issuer, hb]
          rw [hstep]
          exact ⟨hacc, happr, hreg, hown, hcu, hiu⟩
      | true =>
          cases hg : mapGet s.issuers i with
          | some w =>
              have hstep : step s (Action.newIssuer c i n) = s := by
                simp [step, new_issuer, hb, hg]
              rw [hstep]
              exact ⟨hacc, happr, hreg, hown, hcu, hiu⟩
          | none =>
              have hstep : step s (Action.newIssuer c i n) =
                  { s with issuers := mapInsert s.issuers i { name := n, account := i } } := by
                simp [step, new_issuer, hb, hg]
              rw [hstep]
              refine ⟨?_, happr, ?_, hown, hcu, ?_⟩
              · intro p hp
                rcases mem_mapInsert hp with h3 | h3
                · simp [h3]
                · exact hacc p h3
              · intro p hp
                have h4 := hreg p hp
                show (mapGet (mapInsert s.issuers i { name := n, account := i })
                  p.2.issuer_account).isSome = true
                rw [mapGet_mapInsert]
                by_cases h3 : p.2.issuer_account = i
                · simp [h3]
                · simpa [h3] using h4
              · intro k
                show (mapInsert s.issuers i { name := n, account := i }).countP
                  (fun p => p.1 == k) ≤ 1
                rw [countP_mapInsert]
                by_cases h3 : i = k
                · subst h3
                  simp [hg, mapGet_none_countP hg]
                · simpa [hg, h3] using hiu k
  | newCert c ts onm oa mu mh =>
      cases hb : only_issuer s c with
      | false =>
          have hstep : step s (Action.newCert c ts onm oa mu mh) = s := by
            simp [step, new_cert, hb]
          rw [hstep]
          exact ⟨hacc, happr, hreg, hown, hcu, hiu⟩
      | true =>
          cases hg : mapGet s.issuers c with
          | none =>
              have hstep : step s (Action.newCert c ts onm oa mu mh) = s := by
                simp [step, new_cert, hb, hg]
              rw [hstep]
              exact ⟨hacc, happr, hreg, hown, hcu, hiu⟩
          | some creator =>
              have hstep : step s (Action.newCert c ts onm oa mu mh) =
                  { s with certs_map := mapInsert s.certs_map oa (mkCert creator ts onm oa mu) } := by
                simp [step, new_cert, hb, hg]
              rw [hstep]
              refine ⟨hacc, ?_, ?_, ?_, ?_, hiu⟩
              · intro p hp
                rcases mem_mapInsert hp with h3 | h3
                · simp [h3, mkCert]
                · exact happr p h3
              · intro p hp
                show (mapGet s.issuers p.2.issuer_account).isSome = true
                rcases mem_mapInsert hp with h3 | h3
                · have h4 : creator.account = c := hacc (c, creator) (mapGet_some_mem hg)
                  simp [h3, mkCert, h4, hg]
                · exact hreg p h3
              · intro p hp
                rcases mem_mapInsert hp with h3 | h3
                · simp [h3, mkCert]
                · exact hown p h3
              · intro k
                show (mapInsert s.certs_map oa (mkCert creator ts onm oa mu)).countP
                  (fun p => p.1 == k) ≤ 1
                rw [countP_mapInsert]
                cases hoc : mapGet s.certs_map oa with
                | some w => simpa [hoc] using hcu k
                | none =>
                    by_cases h5 : oa = k
                    · subst h5
                      simp [hoc, mapGet_none_countP hoc]
                    · simpa [hoc, h5] using hcu k
  | mintCert c acc =>
      obtain ⟨hi, hc2⟩ := step_mintCert_registries s c acc
      exact goodState_congr hi hc2 ⟨hacc, happr, hreg, hown, hcu, hiu⟩
  | transferToOwner c acc =>
      obtain ⟨hi, hc2⟩ := step_transfer_registries s c acc
      exact goodState_congr hi hc2 ⟨hacc, happr, hreg, hown, hcu, hiu⟩

theorem reachable_goodState {s : Contract} (h : Reachable s) : GoodState s := by
  induction h with
  | init admin => exact goodState_init admin
  | step a _ ih => exact goodState_step a ih

/-! ### Concrete runs used by the witnesses -/

/-- A freshly initialized contract whose administrator is `admin`. -/
def exInit : Contract := Contract.new "admin"

/-- After the administrator registers the issuer `acme`. -/
def exOneIssuer : Contract := step exInit (.newIssuer "admin" "acme" "Acme Corp")

/-- After the administrator additionally registers the issuer `bob`. -/
def exTwoIssuers : Contract := step exOneIssuer (.newIssuer "admin" "bob" "Bob Inc")

/-- After `acme` issues a certificate for the owner `alice`. -/
def exWithCert : Contract :=
  step exTwoIssuers (.newCert "acme" 7 "Alice" "alice" "ipfs://img" "hash1")

theorem reachable_exWithCert : Reachable exWithCert :=
  Reachable.step _ (Reachable.step _ (Reachable.step _ (Reachable.init "admin")))

/-! ### The claims -/

/-- C1: `new_cert` called by any account that is not a registered issuer —
including the foundation (administrator) account when it is not registered —
fails with `Unauthorized`, and the call leaves the whole state, in particular
the certificate map, unchanged. -/
theorem new_cert_unauthorized_of_not_issuer (s : Contract) (caller : AccountId)
    (ts : Nat) (onm oa mu mh : String) (h : mapGet s.issuers caller = none) :
    new_cert s caller ts onm oa mu mh = .error .Unauthorized ∧
    step s (Action.newCert caller ts onm oa mu mh) = s := by
  have hb : only_issuer s caller = false := by simp [only_issuer, h]
  constructor
  · simp [new_cert, hb]
  · simp [step, new_cert, hb]

theorem new_cert_unauthorized_of_not_issuer_witness :
    mapGet exInit.issuers "admin" = none ∧
    (new_cert exInit "admin" 5 "Alice" "alice" "uri" "h1" = .error .Unauthorized ∧
     step exInit (Action.newCert "admin" 5 "Alice" "alice" "uri" "h1") = exInit) :=
  ⟨by decide, new_cert_unauthorized_of_not_issuer exInit "admin" 5 "Alice" "alice" "uri" "h1"
    (by decide)⟩

/-- C2: registering the same account twice as the administrator returns
`true` then `false`, the second call changes nothing, and afterward the
account appears exactly once as a key of the issuer map. -/
theorem new_issuer_twice_spec (s : Contract) (caller a n1 n2 : String)
    (hc : caller = s.contract_foundation) (ha : mapGet s.issuers a = none) :
    ∃ t : Contract,
      new_issuer s caller a n1 = .ok (true, t) ∧
      new_issuer t caller a n2 = .ok (false, t) ∧
      t.issuers.countP (fun p => p.1 == a) = 1 := by
  subst hc
  refine ⟨{ s with issuers := mapInsert s.issuers a { name := n1, account := a } }, ?_, ?_, ?_⟩
  · simp [new_issuer, only_owner, ha]
  · simp [new_issuer, only_owner, mapGet_mapInsert]
  · show (mapInsert s.issuers a { name := n1, account := a }).countP (fun p => p.1 == a) = 1
    rw [countP_mapInsert]
    simp [ha, mapGet_none_countP ha]

theorem new_issuer_twice_spec_witness :
    "admin" = exInit.contract_foundation ∧ mapGet exInit.issuers "alice" = none ∧
    (∃ t : Contract,
      new_issuer exInit "admin" "alice" "A1" = .ok (true, t) ∧
      new_issuer t "admin" "alice" "A2" = .ok (false, t) ∧
      t.issuers.countP (fun p => p.1 == "alice") = 1) :=
  ⟨by decide, by decide, new_issuer_twice_spec exInit "admin" "alice" "A1" "A2"
    (by decide) (by decide)⟩

/-- C3: two `new_cert` calls for the same owner (by possibly different
registered issuers) leave exactly one certificate for that owner, and the
stored record is exactly the one built from the second call's data. -/
theorem new_cert_overwrites_previous (s : Contract) (hr : Reachable s)
    (c1 c2 : AccountId) (i1 i2 : Issuer)
    (h1 : mapGet s.issuers c1 = some i1) (h2 : mapGet s.issuers c2 = some i2)
    (ts1 ts2 : Nat) (n1 n2 owner mu1 mu2 mh1 mh2 : String) :
    ∃ (t1 t2 : Contract),
      new_cert s c1 ts1 n1 owner mu1 mh1 = .ok (mkCert i1 ts1 n1 owner mu1, t1) ∧
      new_cert t1 c2 ts2 n2 owner mu2 mh2 = .ok (mkCert i2 ts2 n2 owner mu2, t2) ∧
      mapGet t2.certs_map owner = some (mkCert i2 ts2 n2 owner mu2) ∧
      t2.certs_map.countP (fun p => p.1 == owner) = 1 := by
  obtain ⟨hacc, happr, hreg, hown, hcu, hiu⟩ := reachable_goodState hr
  refine ⟨{ s with certs_map := mapInsert s.certs_map owner (mkCert i1 ts1 n1 owner mu1) }, { s with certs_map := mapInsert (mapInsert s.certs_map owner (mkCert i1 ts1 n1 owner mu1)) owner (mkCert i2 ts2 n2 owner mu2) }, ?_, ?_, ?_, ?_⟩
  · simp [new_cert, only_issuer, h1]
  · simp [new_cert, only_issuer, h2]
  · show mapGet (mapInsert (mapInsert s.certs_map owner (mkCert i1 ts1 n1 owner mu1))
      owner (mkCert i2 ts2 n2 owner mu2)) owner = some (mkCert i2 ts2 n2 owner mu2)
    rw [mapGet_mapInsert]
    simp
  · show (mapInsert (mapInsert s.certs_map owner (mkCert i1 ts1 n1 owner mu1))
      owner (mkCert i2 ts2 n2 owner mu2)).countP (fun p => p.1 == owner) = 1
    have hone : (mapInsert s.certs_map owner (mkCert i1 ts1 n1 owner mu1)).countP
        (fun p => p.1 == owner) = 1 := by
      rw [countP_mapInsert]
      cases hoc : mapGet s.certs_map owner with
      | none => simp [mapGet_none_countP hoc]
      | some w =>
          have hle := hcu owner
          have hge := mapGet_some_one_le_countP hoc
          simp
          omega
    have hsome : mapGet (mapInsert s.certs_map owner (mkCert i1 ts1 n1 owner mu1)) owner =
        some (mkCert i1 ts1 n1 owner mu1) := by
      rw [mapGet_mapInsert]
      simp
    rw [countP_mapInsert, hsome]
    simpa using hone

theorem new_cert_overwrites_previous_witness :
    mapGet exTwoIssuers.issuers "acme" = some { name := "Acme Corp", account := "acme" } ∧
    mapGet exTwoIssuers.issuers "bob" = some { name := "Bob Inc", account := "bob" } ∧
    (∃ (t1 t2 : Contract),
      new_cert exTwoIssuers "acme" 7 "Alice" "alice" "m1" "h1" =
        .ok (mkCert { name := "Acme Corp", account := "acme" } 7 "Alice" "alice" "m1", t1) ∧
      new_cert t1 "bob" 9 "Alicia" "alice" "m2" "h2" =
        .ok (mkCert { name := "Bob Inc", account := "bob" } 9 "Alicia" "alice" "m2", t2) ∧
      mapGet t2.certs_map "alice" =
        some (mkCert { name := "Bob Inc", account := "bob" } 9 "Alicia" "alice" "m2") ∧
      t2.certs_map.countP (fun p => p.1 == "alice") = 1) :=
  ⟨by decide, by decide,
    new_cert_overwrites_previous exTwoIssuers
      (Reachable.step _ (Reachable.step _ (Reachable.init "admin")))
      "acme" "bob" { name := "Acme Corp", account := "acme" }
      { name := "Bob Inc", account := "bob" } (by decide) (by decide)
      7 9 "Alice" "Alicia" "alice" "m1" "m2" "h1" "h2"⟩

/-- C4: `mint_cert` called by the administrator for an owner with no stored
certificate fails with `CertificateNotFound`, and the call leaves the whole
state (issuers and certificates included) unchanged. -/
theorem mint_cert_certificate_not_found (s : Contract) (caller account : AccountId)
    (hc : caller = s.contract_foundation) (h : mapGet s.certs_map account = none) :
    mint_cert s caller account = .error .CertificateNotFound ∧
    step s (Action.mintCert caller account) = s := by
  subst hc
  constructor
  · simp [mint_cert, only_owner, h]
  · simp [step, mint_cert, only_owner, h]

theorem mint_cert_certificate_not_found_witness :
    "admin" = exWithCert.contract_foundation ∧ mapGet exWithCert.certs_map "bob" = none ∧
    (mint_cert exWithCert "admin" "bob" = .error .CertificateNotFound ∧
     step exWithCert (Action.mintCert "admin" "bob") = exWithCert) :=
  ⟨by decide, by decide, mint_cert_certificate_not_found exWithCert "admin" "bob"
    (by decide) (by decide)⟩

/-- C5: `mint_cert` called by any account other than the foundation
(administrator) fails with `Unauthorized`, with no condition on whether a
certificate exists for the target — the role check decides first — and
leaves the state unchanged. -/
theorem mint_cert_unauthorized_of_not_foundation (s : Contract)
    (caller account : AccountId) (hc : caller ≠ s.contract_foundation) :
    mint_cert s caller account = .error .Unauthorized ∧
    step s (Action.mintCert caller account) = s := by
  have hb : only_owner s caller = false := by simp [only_owner, hc]
  constructor
  · simp [mint_cert, hb]
  · simp [step, mint_cert, hb]

theorem mint_cert_unauthorized_of_not_foundation_witness :
    "eve" ≠ exWithCert.contract_foundation ∧
    (mint_cert exWithCert "eve" "alice" = .error .Unauthorized ∧
     step exWithCert (Action.mintCert "eve" "alice") = exWithCert) :=
  ⟨by decide, mint_cert_unauthorized_of_not_foundation exWithCert "eve" "alice" (by decide)⟩

/-- C6: in every reachable state, every stored certificate has
`is_approved = false`; no exposed operation ever sets it to true. -/
theorem reachable_certs_never_approved (s : Contract) (hr : Reachable s) :
    ∀ p ∈ s.certs_map, (p : AccountId × Certificate).2.is_approved = false :=
  (reachable_goodState hr).2.1

theorem reachable_certs_never_approved_witness :
    exWithCert.certs_map ≠ [] ∧
    ∀ p ∈ exWithCert.certs_map, (p : AccountId × Certificate).2.is_approved = false :=
  ⟨by decide, reachable_certs_never_approved exWithCert
    (Reachable.step _ (Reachable.step _ (Reachable.step _ (Reachable.init "admin"))))⟩

/-- C7: a successful `new_cert` returns — and stores under the owner's key —
a certificate whose metadata has title `L1 Certificate`, empty description,
the supplied media URI, no media hash (the supplied hash argument is
dropped), copy count 1, and the host timestamp as issuance time; its issuer
account is the caller and it is not approved. -/
theorem new_cert_success_shape (s : Contract) (hr : Reachable s)
    (caller : AccountId) (i : Issuer) (hi : mapGet s.issuers caller = some i)
    (ts : Nat) (onm oa mu mh : String) :
    ∃ (cert : Certificate) (t : Contract),
      new_cert s caller ts onm oa mu mh = .ok (cert, t) ∧
      mapGet t.certs_map oa = some cert ∧
      cert.metadata.title = some "L1 Certificate" ∧
      cert.metadata.description = some "" ∧
      cert.metadata.media = some mu ∧
      cert.metadata.media_hash = none ∧
      cert.metadata.copies = some 1 ∧
      cert.metadata.issued_at = some (toString ts) ∧
      cert.issuer_account = caller ∧
      cert.owner_account = oa ∧
      cert.owner_name = onm ∧
      cert.is_approved = false := by
  obtain ⟨hacc, hrest⟩ := reachable_goodState hr
  have hia : i.account = caller := hacc (caller, i) (mapGet_some_mem hi)
  refine ⟨mkCert i ts onm oa mu,
    { s with certs_map := mapInsert s.certs_map oa (mkCert i ts onm oa mu) },
    ?_, ?_, ?_, ?_, ?_, ?_, ?_, ?_, ?_, ?_, ?_, ?_⟩
  · simp [new_cert, only_issuer, hi]
  · show mapGet (mapInsert s.certs_map oa (mkCert i ts onm oa mu)) oa =
      some (mkCert i ts onm oa mu)
    rw [mapGet_mapInsert]
    simp
  all_goals simp [mkCert, certMetadata, hia]

theorem new_cert_success_shape_witness :
    mapGet exOneIssuer.issuers "acme" = some { name := "Acme Corp", account := "acme" } ∧
    (∃ (cert : Certificate) (t : Contract),
      new_cert exOneIssuer "acme" 7 "Alice" "alice" "ipfs://img" "hash1" = .ok (cert, t) ∧
      mapGet t.certs_map "alice" = some cert ∧
      cert.metadata.title = some "L1 Certificate" ∧
      cert.metadata.description = some "" ∧
      cert.metadata.media = some "ipfs://img" ∧
      cert.metadata.media_hash = none ∧
      cert.metadata.copies = some 1 ∧
      cert.metadata.issued_at = some (toString 7) ∧
      cert.issuer_account = "acme" ∧
      cert.owner_account = "alice" ∧
      cert.owner_name = "Alice" ∧
      cert.is_approved = false) :=
  ⟨by decide, new_cert_success_shape exOneIssuer
    (Reachable.step _ (Reachable.init "admin"))
    "acme" { name := "Acme Corp", account := "acme" } (by decide)
    7 "Alice" "alice" "ipfs://img" "hash1"⟩

/-- C8: once the `only_issuer` guard has passed, the subsequent lookup of the
caller's issuer profile always succeeds: `new_cert` returns a success and can
never fail with `IssuerNotFound`. -/
theorem new_cert_issuer_lookup_total (s : Contract) (caller : AccountId)
    (h : only_issuer s caller = true) (ts : Nat) (onm oa mu mh : String) :
    (∃ r, new_cert s caller ts onm oa mu mh = .ok r) ∧
    new_cert s caller ts onm oa mu mh ≠ .error .IssuerNotFound := by
  cases hg : mapGet s.issuers caller with
  | none =>
      unfold only_issuer at h
      rw [hg] at h
      simp at h
  | some creator =>
      constructor
      · exact ⟨(mkCert creator ts onm oa mu,
          { s with certs_map := mapInsert s.certs_map oa (mkCert creator ts onm oa mu) }),
          by simp [new_cert, only_issuer, hg]⟩
      · simp [new_cert, only_issuer, hg]

theorem new_cert_issuer_lookup_total_witness :
    only_issuer exOneIssuer "acme" = true ∧
    ((∃ r, new_cert exOneIssuer "acme" 7 "Alice" "alice" "uri" "h1" = .ok r) ∧
     new_cert exOneIssuer "acme" 7 "Alice" "alice" "uri" "h1" ≠ .error .IssuerNotFound) :=
  ⟨by decide, new_cert_issuer_lookup_total exOneIssuer "acme" (by decide)
    7 "Alice" "alice" "uri" "h1"⟩

/-- C9: in every reachable state, every stored certificate's `issuer_account`
is a key of the issuer map (certificates are only created by registered
issuers, and issuers are never removed). -/
theorem reachable_cert_issuers_registered (s : Contract) (hr : Reachable s) :
    ∀ p ∈ s.certs_map,
      (mapGet s.issuers (p : AccountId × Certificate).2.issuer_account).isSome = true :=
  (reachable_goodState hr).2.2.1

theorem reachable_cert_issuers_registered_witness :
    exWithCert.certs_map ≠ [] ∧
    ∀ p ∈ exWithCert.certs_map,
      (mapGet exWithCert.issuers (p : AccountId × Certificate).2.issuer_account).isSome = true :=
  ⟨by decide, reachable_cert_issuers_registered exWithCert
    (Reachable.step _ (Reachable.step _ (Reachable.step _ (Reachable.init "admin"))))⟩

/-- C10: in every reachable state, every entry of the certificate map stores
a certificate whose `owner_account` equals the key it is stored under. -/
theorem reachable_cert_key_is_owner (s : Contract) (hr : Reachable s) :
    ∀ p ∈ s.certs_map, (p : AccountId × Certificate).2.owner_account = p.1 :=
  (reachable_goodState hr).2.2.2.1

theorem reachable_cert_key_is_owner_witness :
    exWithCert.certs_map ≠ [] ∧
    ∀ p ∈ exWithCert.certs_map, (p : AccountId × Certificate).2.owner_account = p.1 :=
  ⟨by decide, reachable_cert_key_is_owner exWithCert
    (Reachable.step _ (Reachable.step _ (Reachable.step _ (Reachable.init "admin"))))⟩

end NearCert
